import Mathlib

/-
Verification of the inter-rater-reliability core of the KrippendorffAlpha
repository (src/processors/irr_processor.py).

Embedding conventions:
* Python exceptions are modelled by `Except PyErr`: `KeyError` for a label
  lookup on a column that does not exist, `ZeroDivisionError` for Python
  integer true-division by zero, `ValueError` for the pandas `DataFrame.insert`
  of an already-existing column name.
* Python/numpy floating point is modelled by exact rationals.  Divisions
  performed on numpy scalars do not raise on a zero denominator; they emit a
  warning and produce `nan`/`inf`.  The type `NpVal` has a single `nonfinite`
  value absorbing those cases; the claims only concern exact finite values and
  zero-denominator events, never rounding.
* The pandas `DataFrame` of `_get_agreement_table` is modelled as a list of
  `TableRow`: the `data` column is the `data` field, the one count column per
  entry of `available_labels` is the `counts` list (positionally aligned with
  the vocabulary), and the `num_rater` column is the `num_rater` field.  This
  representation assumes the vocabulary does not contain the reserved column
  names `num_rater` (the code would silently overwrite such a column) nor the
  data column name (for which the code raises `ValueError`, modelled below).
* The Python `dict` named `hash_map` in the source is an insertion-ordered
  association list; updating an existing key keeps its position, a new key is
  appended at the end.
-/

inductive PyErr where
  | keyError (tok : String)
  | zeroDivisionError
  | valueError
  deriving DecidableEq, Repr

/-- Model of a numpy floating-point scalar: either an exact finite value or a
non-finite value (`nan` or `inf`, produced by a zero-denominator division). -/
inductive NpVal where
  | fin (q : ℚ)
  | nonfinite
  deriving DecidableEq, Repr

def np_add : NpVal → NpVal → NpVal
  | .fin a, .fin b => .fin (a + b)
  | _, _ => .nonfinite

def np_sub : NpVal → NpVal → NpVal
  | .fin a, .fin b => .fin (a - b)
  | _, _ => .nonfinite

def np_mul : NpVal → NpVal → NpVal
  | .fin a, .fin b => .fin (a * b)
  | _, _ => .nonfinite

/-- numpy division: a zero denominator produces `nan`/`inf` (with a runtime
warning) instead of raising. -/
def np_div : NpVal → NpVal → NpVal
  | .fin a, .fin b => if b = 0 then .nonfinite else .fin (a / b)
  | _, _ => .nonfinite

instance exceptDecEq {e : Type} {a : Type} [DecidableEq e] [DecidableEq a] :
    DecidableEq (Except e a)
  | .error x, .error y =>
    if h : x = y then .isTrue (by rw [h]) else .isFalse (fun hh => h (Except.error.inj hh))
  | .error _, .ok _ => .isFalse (fun hh => Except.noConfusion hh)
  | .ok _, .error _ => .isFalse (fun hh => Except.noConfusion hh)
  | .ok x, .ok y =>
    if h : x = y then .isTrue (by rw [h]) else .isFalse (fun hh => h (Except.ok.inj hh))

/-- `RaterDataRow` dataclass: one annotation, a raw comma-separated label
string and a raw item key. -/
structure RaterDataRow where
  labels : String
  data : String
  deriving DecidableEq, Repr

/-- `RaterData` dataclass: one rater's stream of annotations. -/
structure RaterData where
  rows : List RaterDataRow
  deriving DecidableEq, Repr

/-- `ProcessorConfig` dataclass (defaults: "label_1", "label_2", "data").
The two label column names are the fixed slot tags of the per-item dict in
`_get_agreement_table`; they are represented positionally below. -/
structure ProcessorConfig where
  rater_1_label_column_name : String
  rater_2_label_column_name : String
  data_column_name : String
  deriving DecidableEq, Repr

def defaultConfig : ProcessorConfig :=
  { rater_1_label_column_name := ("label_1"),
    rater_2_label_column_name := ("label_2"),
    data_column_name := ("data") }

/-- The `IRRProcessor` object: constructor state plus the `krip_alpha`
attribute that `calculate_irr` assigns (absent before the first call). -/
structure IRRProcessor where
  available_labels : List String
  config : ProcessorConfig
  krip_alpha : Option NpVal
  deriving DecidableEq, Repr

/-- Python whitespace for `str.strip()`: space, tab, newline, carriage
return, vertical tab, form feed. -/
def py_is_space (c : Char) : Bool :=
  if c = ' ' then true
  else if c = '\t' then true
  else if c = '\n' then true
  else if c = '\r' then true
  else if c = '\x0b' then true
  else if c = '\x0c' then true
  else false

/-- Python `str.strip()` on the underlying character list. -/
def py_strip (s : String) : String :=
  ⟨((s.data.dropWhile py_is_space).reverse.dropWhile py_is_space).reverse⟩

/-- Python `str.lower()` for one character (ASCII; the inputs of interest are
ASCII label and item strings). -/
def py_char_lower (c : Char) : Char :=
  if ('A' ≤ c ∧ c ≤ 'Z') then Char.ofNat (c.toNat + 32) else c

/-- Python `str.lower()`. -/
def py_lower (s : String) : String :=
  ⟨s.data.map py_char_lower⟩

/-- Python `str.split(", ")` on the character list: a left-to-right,
non-overlapping scan for the two-character separator.  The result is never
empty: `"".split(", ") == [""]`. -/
def py_split_comma_space : List Char → List (List Char)
  | [] => [[]]
  | [c] => [[c]]
  | c :: c2 :: rest =>
    if c = ',' ∧ c2 = ' ' then [] :: py_split_comma_space rest
    else
      match py_split_comma_space (c2 :: rest) with
      | [] => [[c]]
      | g :: gs => (c :: g) :: gs

/-- `_process_labels`: lower-case the raw string, split on the exact
separator ", ", strip each token.  In Python `"".split(", ") == [""]`, so the
result is never the empty list. -/
def _process_labels (labels : String) : List String :=
  ((py_split_comma_space (py_lower labels).data).map (fun l => (⟨l⟩ : String))).map
    (fun s => py_strip s)

/-- One entry of the `hash_map` dict: canonical item key, rater-1 token list,
rater-2 token list. -/
abbrev HMEntry := String × List String × List String

abbrev HMap := List HMEntry

/-- Python `k in hash_map`. -/
def has_key : HMap → String → Bool
  | [], _ => false
  | e :: rest, k => if e.1 = k then true else has_key rest k

/-- Python dict lookup `hash_map[k]` (as an `Option`). -/
def alookup : HMap → String → Option (List String × List String)
  | [], _ => none
  | e :: rest, k => if e.1 = k then some e.2 else alookup rest k

/-- First loop body of `_get_agreement_table`:
`hash_map[k][label_1] = v; hash_map[k][label_2] = []`.  An existing key is
updated in place, a new key is appended. -/
def set1 (m : HMap) (k : String) (v : List String) : HMap :=
  if has_key m k then m.map (fun e => if e.1 = k then (k, v, ([] : List String)) else e)
  else m ++ [(k, v, ([] : List String))]

/-- Second loop body of `_get_agreement_table`: create the row with an empty
rater-1 slot when the key is new, then `hash_map[k][label_2] = v`. -/
def set2 (m : HMap) (k : String) (v : List String) : HMap :=
  if has_key m k then m.map (fun e => if e.1 = k then (e.1, e.2.1, v) else e)
  else m ++ [(k, ([] : List String), v)]

/-- First `for` loop of `_get_agreement_table` over rater 1's rows. -/
def pass1 : HMap → List RaterDataRow → HMap
  | m, [] => m
  | m, a :: rest => pass1 (set1 m (py_strip a.data) (_process_labels a.labels)) rest

/-- Second `for` loop of `_get_agreement_table` over rater 2's rows. -/
def pass2 : HMap → List RaterDataRow → HMap
  | m, [] => m
  | m, a :: rest => pass2 (set2 m (py_strip a.data) (_process_labels a.labels)) rest

/-- The fully built `hash_map` dict of `_get_agreement_table`. -/
def hash_map (r1 r2 : List RaterDataRow) : HMap :=
  pass2 (pass1 [] r1) r2

/-- One row of the agreement table `DataFrame`: the `data` cell, the count
cells (one per vocabulary entry, positionally aligned), and `num_rater`. -/
structure TableRow where
  data : String
  counts : List Nat
  num_rater : Nat
  deriving DecidableEq, Repr

/-- `df.at[row_idx, label] += 1`: bump the count cell of the column named
`tok`; a token that is not a column is a `KeyError`. -/
def incr (vocab : List String) (counts : List Nat) (tok : String) : Except PyErr (List Nat) :=
  match vocab, counts with
  | [], _ => .error (.keyError tok)
  | _ :: _, [] => .error (.keyError tok)
  | v :: vrest, c :: crest =>
    if v = tok then .ok ((c + 1) :: crest)
    else
      match incr vrest crest tok with
      | .ok cs => .ok (c :: cs)
      | .error e => .error e

/-- The two inner `for label in users_labels[...]` loops of
`_get_agreement_table`, run on `l1 ++ l2`. -/
def row_counts (vocab : List String) (counts : List Nat) : List String → Except PyErr (List Nat)
  | [] => .ok counts
  | tok :: rest =>
    match incr vocab counts tok with
    | .ok cs => row_counts vocab cs rest
    | .error e => .error e

/-- Build one table row from a `hash_map` entry: the `num_rater` increments
and the per-token count increments of the final loop of
`_get_agreement_table`. -/
def mk_row (vocab : List String) (e : HMEntry) : Except PyErr TableRow :=
  match row_counts vocab (List.replicate vocab.length 0) (e.2.1 ++ e.2.2) with
  | .ok cs =>
    .ok { data := e.1, counts := cs,
          num_rater := (if e.2.1.isEmpty then 0 else 1) + (if e.2.2.isEmpty then 0 else 1) }
  | .error err => .error err

/-- The final loop of `_get_agreement_table` over the `hash_map` entries in
insertion order; the first failing label lookup aborts with its `KeyError`. -/
def build_rows (vocab : List String) : HMap → Except PyErr (List TableRow)
  | [] => .ok []
  | e :: rest =>
    match mk_row vocab e with
    | .ok r =>
      match build_rows vocab rest with
      | .ok rs => .ok (r :: rs)
      | .error err => .error err
    | .error err => .error err

/-- `_get_agreement_table`: `df.insert` raises `ValueError` when the data
column name is already a vocabulary column; otherwise the table is built from
the `hash_map` entries. -/
def _get_agreement_table (p : IRRProcessor) (rater1_data rater2_data : RaterData) :
    Except PyErr (List TableRow) :=
  if p.config.data_column_name ∈ p.available_labels then .error .valueError
  else build_rows p.available_labels (hash_map rater1_data.rows rater2_data.rows)

/-- Line 146: `r_bar = sum(num_rater column) / n` (exact value; the code path
with `n = 0` raises instead, handled in `alpha_from_table`). -/
def r_bar (t : List TableRow) : ℚ :=
  ((t.map (fun r => (r.num_rater : ℚ))).sum) / (t.length : ℚ)

/-- Line 162: `p_aik = (r_ik * (rbar_ik - 1)) / (r_bar * (r_i - 1))` with
`rbar_ik = r_ik`; a numpy division (zero denominator gives a non-finite
value, no exception). -/
def p_aik_term (rbar r_i : ℚ) (c : Nat) : NpVal :=
  np_div (.fin ((c : ℚ) * ((c : ℚ) - 1))) (.fin (rbar * (r_i - 1)))

/-- Inner label loop of lines 155-163 for one row: `r_i` is the row's total
count and each cell contributes `p_aik` to the running `p_primea`. -/
def row_term_sum (rbar : ℚ) (row : TableRow) (acc : NpVal) : NpVal :=
  row.counts.foldl (fun a c => np_add a (p_aik_term rbar ((row.counts.sum : ℚ)) c)) acc

/-- Column sum `agreement_table[label].sum()` for the `j`-th vocabulary
column. -/
def col_sum (t : List TableRow) (j : Nat) : Nat :=
  (t.map (fun r => r.counts.getD j 0)).sum

/-- `total_num_ratings`: the sum of all `r_i` accumulated in the row loop. -/
def total_num_ratings (t : List TableRow) : Nat :=
  (t.map (fun r => r.counts.sum)).sum

/-- Lines 168-173: the `PI_ks` list.  `PI_k` divides two Python integers, so
a zero `total_num_ratings` raises `ZeroDivisionError` at the first label
(with an empty vocabulary the loop body never runs). -/
def pi_list (t : List TableRow) : List Nat → Except PyErr (List ℚ)
  | [] => .ok []
  | j :: rest =>
    if total_num_ratings t = 0 then .error .zeroDivisionError
    else
      match pi_list t rest with
      | .ok ps => .ok (((col_sum t j : ℚ) / (total_num_ratings t : ℚ)) :: ps)
      | .error e => .error e

/-- Lines 144-179 of `calculate_irr`: the coefficient computation on the built
agreement table.  `r_bar` divides two Python integers, so an empty table
raises `ZeroDivisionError`; all later divisions are numpy divisions except
`PI_k` (see `pi_list`). -/
def alpha_from_table (vocab : List String) (t : List TableRow) : Except PyErr NpVal :=
  if t.length = 0 then .error .zeroDivisionError
  else
    let rbar := r_bar t
    let n : ℚ := (t.length : ℚ)
    let p_primea0 := t.foldl (fun acc row => row_term_sum rbar row acc) (.fin 0)
    let p_primea := np_div p_primea0 (.fin n)
    let p_a := np_add (np_mul p_primea (np_sub (.fin 1) (np_div (.fin 1) (.fin (n * rbar)))))
                      (np_div (.fin 1) (.fin (n * rbar)))
    match pi_list t (List.range vocab.length) with
    | .error e => .error e
    | .ok pis =>
      let p_e : ℚ := (pis.map (fun x => x * x)).sum
      .ok (np_div (np_sub p_a (.fin p_e)) (np_sub (.fin 1) (.fin p_e)))

/-- `calculate_irr`: builds the agreement table, computes the coefficient,
assigns it to `self.krip_alpha` (line 181) and returns it.  The returned pair
is (return value, post-state of the processor object). -/
def calculate_irr (p : IRRProcessor) (rater1_data rater2_data : RaterData) :
    Except PyErr (NpVal × IRRProcessor) :=
  match _get_agreement_table p rater1_data rater2_data with
  | .error e => .error e
  | .ok t =>
    match alpha_from_table p.available_labels t with
    | .error e => .error e
    | .ok a => .ok (a, { p with krip_alpha := some a })

/-- Modelled from the spec (section 4.2 step 1): the mean number of raters
per item. -/
def spec_r_bar (t : List TableRow) : ℚ :=
  ((t.map (fun r => (r.num_rater : ℚ))).sum) / (t.length : ℚ)

/-- Modelled from the spec (section 4.2 step 2): the row's total number of
label assignments. -/
def spec_r_i (row : TableRow) : ℚ := ((row.counts.sum : Nat) : ℚ)

/-- Modelled from the spec (section 4.2 step 2): the sum over labels `k` of
`p_aik = r_ik * (rbar_ik - 1) / (r_bar * (r_i - 1))` with `rbar_ik = r_ik`,
for one row. -/
def spec_row_sum (rbar : ℚ) (row : TableRow) : ℚ :=
  (row.counts.map (fun c : ℕ => ((c : ℚ) * ((c : ℚ) - 1)) / (rbar * (spec_r_i row - 1)))).sum

/-- Modelled from the spec (section 4.2 step 2): `p_primea`, the grand sum of
`p_aik` divided by `n`. -/
def spec_p_primea (t : List TableRow) : ℚ :=
  ((t.map (fun row => spec_row_sum (spec_r_bar t) row)).sum) / (t.length : ℚ)

/-- Modelled from the spec (section 4.2 step 3):
`p_a = p_primea * (1 - 1/(n * r_bar)) + 1/(n * r_bar)`. -/
def spec_p_a (t : List TableRow) : ℚ :=
  spec_p_primea t * (1 - 1 / ((t.length : ℚ) * spec_r_bar t)) +
    1 / ((t.length : ℚ) * spec_r_bar t)

/-- Modelled from the spec (section 4.2 step 4): the marginal proportion of
the `j`-th label. -/
def spec_PI (t : List TableRow) (j : Nat) : ℚ :=
  ((col_sum t j : Nat) : ℚ) / ((total_num_ratings t : Nat) : ℚ)

/-- Modelled from the spec (section 4.2 step 4): `p_e`, the sum over labels of
the squared marginal proportions. -/
def spec_p_e (vocab : List String) (t : List TableRow) : ℚ :=
  ((List.range vocab.length).map (fun j => spec_PI t j * spec_PI t j)).sum

/-- Modelled from the spec (section 4.2 step 5):
`alpha = (p_a - p_e) / (1 - p_e)`. -/
def spec_alpha (vocab : List String) (t : List TableRow) : ℚ :=
  (spec_p_a t - spec_p_e vocab t) / (1 - spec_p_e vocab t)

/-- Keyed access to a table row, as the source does with
`df[df[data_column] == data].index[0]`: the first row whose data cell is `k`. -/
def find_row : List TableRow → String → Option TableRow
  | [], _ => none
  | r :: rest, k => if r.data = k then some r else find_row rest k

/-- Derived for the proofs: the processed label list of the last annotation in
a stream whose stripped item key is `k` (Python dict update semantics keep the
last write). -/
def last_labels : List RaterDataRow → String → Option (List String)
  | [], _ => none
  | a :: rest, k =>
    match last_labels rest k with
    | some v => some v
    | none => if py_strip a.data = k then some (_process_labels a.labels) else none

/-- Derived for the proofs: how the two raters' slots combine in a `hash_map`
entry (a missing slot is the empty token list). -/
def combine12 : Option (List String) → Option (List String) → Option (List String × List String)
  | none, none => none
  | some v, none => some (v, [])
  | none, some w => some ([], w)
  | some v, some w => some (v, w)

/-- The key column of the `hash_map` dict. -/
def hkeys (m : HMap) : List String := m.map (fun e => e.1)

/-- Derived for the proofs: the index of the first vocabulary column named
`tok` (the column `incr` bumps). -/
def tok_idx : List String → String → Option ℕ
  | [], _ => none
  | v :: rest, tok => if v = tok then some 0 else (tok_idx rest tok).map (fun i => i + 1)

/-- C2: for vocabulary {a, b, c}, rater 1 annotating "x" with "a, b" and "y"
with "c", and rater 2 annotating only "x" with "a, b", the built agreement
table has exactly the two rows x ↦ {a:2, b:2, c:0} with num_rater 2 and
y ↦ {a:0, b:0, c:1} with num_rater 1 (the single-rater item is kept), n = 2,
and the mean raters per item r_bar = 3/2. -/
theorem c2_concrete_scenario :
    _get_agreement_table ⟨["a", "b", "c"], defaultConfig, none⟩
        ⟨[⟨"a, b", "x"⟩, ⟨"c", "y"⟩]⟩ ⟨[⟨"a, b", "x"⟩]⟩
      = .ok [⟨"x", [2, 2, 0], 2⟩, ⟨"y", [0, 0, 1], 1⟩]
    ∧ ([(⟨"x", [2, 2, 0], 2⟩ : TableRow), ⟨"y", [0, 0, 1], 1⟩]).length = 2
    ∧ r_bar [⟨"x", [2, 2, 0], 2⟩, ⟨"y", [0, 0, 1], 1⟩] = 3 / 2 := by
  refine ⟨by decide, by decide, by norm_num [r_bar]⟩

/-- C3 counterexample: with both rater streams empty (n = 0), `calculate_irr`
fails with the unnamed Python `ZeroDivisionError` from `r_bar = sum(...) / n`,
not with a `DegenerateInputError` — no such error class exists in the code. -/
theorem c3_counterexample :
    calculate_irr ⟨["a", "b", "c"], defaultConfig, none⟩ ⟨[]⟩ ⟨[]⟩
      = .error .zeroDivisionError := by decide

/-- C3 amended: the three degenerate conditions do not produce a named
`DegenerateInputError`.  (1) n = 0 raises the unnamed `ZeroDivisionError`;
(2) a table whose total number of ratings is 0 makes the `PI_k` integer
division raise the unnamed `ZeroDivisionError` at the coefficient stage;
(3) p_e = 1 (one label absorbing all assignments) produces a non-finite
float from the final numpy division, with no exception at all. -/
theorem c3_amended :
    calculate_irr ⟨["a", "b", "c"], defaultConfig, none⟩ ⟨[]⟩ ⟨[]⟩
      = .error .zeroDivisionError
    ∧ alpha_from_table ["a"] [⟨"x", [0], 1⟩] = .error .zeroDivisionError
    ∧ (calculate_irr ⟨["a"], defaultConfig, none⟩ ⟨[⟨"a", "x"⟩]⟩ ⟨[⟨"a", "x"⟩]⟩).map Prod.fst
      = .ok .nonfinite := by
  refine ⟨by decide, by decide, ?_⟩
  have ht : _get_agreement_table ⟨["a"], defaultConfig, none⟩ ⟨[⟨"a", "x"⟩]⟩ ⟨[⟨"a", "x"⟩]⟩
      = .ok [⟨"x", [2], 2⟩] := by decide
  have ha : alpha_from_table ["a"] [⟨"x", [2], 2⟩] = .ok .nonfinite := by
    norm_num [alpha_from_table, r_bar, row_term_sum, p_aik_term, pi_list, col_sum,
      total_num_ratings, np_add, np_sub, np_mul, np_div]
  simp [calculate_irr, ht, ha, Except.map]

/-- C4 counterexample: an annotation whose raw label text is empty does not
yield an empty label-set; `_process_labels` returns the one-token list [""]
and the builder raises `KeyError ""` when incrementing that token's count
(the empty string is not a vocabulary column), instead of completing. -/
theorem c4_counterexample :
    _get_agreement_table ⟨["a"], defaultConfig, none⟩ ⟨[⟨"", "x"⟩]⟩ ⟨[]⟩
      = .error (.keyError "") := by decide

theorem py_split_comma_space_ne_nil (l : List Char) :
    1 ≤ (py_split_comma_space l).length := by
  cases l with
  | nil => simp [py_split_comma_space]
  | cons c rest =>
    cases rest with
    | nil => simp [py_split_comma_space]
    | cons c2 rest2 =>
      unfold py_split_comma_space
      by_cases hsep : c = ',' ∧ c2 = ' '
      · rw [if_pos hsep]
        simp
      · rw [if_neg hsep]
        cases py_split_comma_space (c2 :: rest2) with
        | nil => simp
        | cons g gs => simp

theorem process_labels_ne_nil (s : String) : 1 ≤ (_process_labels s).length := by
  unfold _process_labels
  rw [List.length_map, List.length_map]
  exact py_split_comma_space_ne_nil _

/-- C4 amended: malformed (empty) raw label text produces the one-element
token list [""], not an empty label-set; the rater is therefore counted in
num_rater, and the empty token is looked up as a label column (a `KeyError`
unless "" is itself a vocabulary entry, in which case its count is
incremented). -/
theorem c4_amended :
    _process_labels "" = [""]
    ∧ (∀ s : String, 1 ≤ (_process_labels s).length)
    ∧ _get_agreement_table ⟨[""], defaultConfig, none⟩ ⟨[⟨"", "x"⟩]⟩ ⟨[]⟩
      = .ok [⟨"x", [1], 1⟩] := by
  refine ⟨by decide, process_labels_ne_nil, by decide⟩

/-- C5 counterexample: using the same annotation set for both raters, with
every item carrying at least one label and no degenerate division, does not
give alpha = 1: with vocabulary {a, b, c} and A = [("a, b", "x"), ("c", "y")],
`calculate_irr(A, A)` returns 13/16 < 1 (a multi-label item makes perfect
self-agreement score below 1). -/
theorem c5_counterexample :
    (calculate_irr ⟨["a", "b", "c"], defaultConfig, none⟩
        ⟨[⟨"a, b", "x"⟩, ⟨"c", "y"⟩]⟩ ⟨[⟨"a, b", "x"⟩, ⟨"c", "y"⟩]⟩).map Prod.fst
      = .ok (.fin (13 / 16))
    ∧ (13 : ℚ) / 16 < 1 := by
  refine ⟨?_, by norm_num⟩
  have ht : _get_agreement_table ⟨["a", "b", "c"], defaultConfig, none⟩
      ⟨[⟨"a, b", "x"⟩, ⟨"c", "y"⟩]⟩ ⟨[⟨"a, b", "x"⟩, ⟨"c", "y"⟩]⟩
      = .ok [⟨"x", [2, 2, 0], 2⟩, ⟨"y", [0, 0, 2], 2⟩] := by decide
  have ha : alpha_from_table ["a", "b", "c"] [⟨"x", [2, 2, 0], 2⟩, ⟨"y", [0, 0, 2], 2⟩]
      = .ok (.fin (13 / 16)) := by
    norm_num [alpha_from_table, r_bar, row_term_sum, p_aik_term, pi_list, col_sum,
      total_num_ratings, np_add, np_sub, np_mul, np_div]
  simp [calculate_irr, ht, ha, Except.map]

/-- C7 counterexample: label counts are not bounded by 2.  Tokens are not
deduplicated, so the raw label text "a, a" from each of the two raters gives
the label a the count 4 ∉ {0, 1, 2}. -/
theorem c7_counterexample :
    _get_agreement_table ⟨["a", "b"], defaultConfig, none⟩
        ⟨[⟨"a, a", "x"⟩]⟩ ⟨[⟨"a, a", "x"⟩]⟩
      = .ok [⟨"x", [4, 0], 2⟩]
    ∧ 2 < 4 := by
  refine ⟨by decide, by decide⟩

/-- C8 counterexample: `calculate_irr` is not free of object state: starting
from a processor whose `krip_alpha` attribute is unset, a successful call
returns a processor state carrying `krip_alpha = some 0` (line 181 of the
source assigns the computed coefficient to `self`). -/
theorem c8_counterexample :
    calculate_irr ⟨["a", "b"], defaultConfig, none⟩ ⟨[⟨"a", "x"⟩]⟩ ⟨[⟨"b", "x"⟩]⟩
      = .ok (.fin 0, ⟨["a", "b"], defaultConfig, some (.fin 0)⟩)
    ∧ (⟨["a", "b"], defaultConfig, none⟩ : IRRProcessor).krip_alpha = none := by
  refine ⟨?_, rfl⟩
  have ht : _get_agreement_table ⟨["a", "b"], defaultConfig, none⟩ ⟨[⟨"a", "x"⟩]⟩ ⟨[⟨"b", "x"⟩]⟩
      = .ok [⟨"x", [1, 1], 2⟩] := by decide
  have ha : alpha_from_table ["a", "b"] [⟨"x", [1, 1], 2⟩] = .ok (.fin 0) := by
    norm_num [alpha_from_table, r_bar, row_term_sum, p_aik_term, pi_list, col_sum,
      total_num_ratings, np_add, np_sub, np_mul, np_div]
  simp [calculate_irr, ht, ha, Except.map]

/-- C10 counterexample: an input containing an out-of-vocabulary label token
need not raise: a later annotation by the same rater on the same item
overwrites the offending one in the merge, and `_get_agreement_table`
returns a table.  Here rater 1 labels "x" with "bad" (not in the vocabulary
["a"]) and then with "a". -/
theorem c10_counterexample :
    _get_agreement_table ⟨["a"], defaultConfig, none⟩
        ⟨[⟨"bad", "x"⟩, ⟨"a", "x"⟩]⟩ ⟨[]⟩
      = .ok [⟨"x", [1], 1⟩]
    ∧ _process_labels ("bad") = ["bad"]
    ∧ ((["a"] : List String).contains ("bad")) = false := by
  refine ⟨by decide, by decide, by decide⟩

theorem np_add_fin (a b : ℚ) : np_add (.fin a) (.fin b) = .fin (a + b) := rfl

theorem np_sub_fin (a b : ℚ) : np_sub (.fin a) (.fin b) = .fin (a - b) := rfl

theorem np_mul_fin (a b : ℚ) : np_mul (.fin a) (.fin b) = .fin (a * b) := rfl

theorem np_div_fin (a b : ℚ) (h : b ≠ 0) : np_div (.fin a) (.fin b) = .fin (a / b) := by
  simp [np_div, h]

theorem r_bar_eq_spec (t : List TableRow) : r_bar t = spec_r_bar t := rfl

theorem fold_paik_fin (rbar ri : ℚ) (h : rbar * (ri - 1) ≠ 0) (l : List ℕ) (q : ℚ) :
    l.foldl (fun a c => np_add a (p_aik_term rbar ri c)) (.fin q)
      = .fin (q + (l.map (fun c : ℕ => ((c : ℚ) * ((c : ℚ) - 1)) / (rbar * (ri - 1)))).sum) := by
  induction l generalizing q with
  | nil => simp
  | cons c rest ih =>
    rw [List.foldl_cons]
    have hterm : np_add (NpVal.fin q) (p_aik_term rbar ri c)
        = NpVal.fin (q + ((c : ℚ) * ((c : ℚ) - 1)) / (rbar * (ri - 1))) := by
      unfold p_aik_term
      rw [np_div_fin _ _ h, np_add_fin]
    rw [hterm, ih, List.map_cons, List.sum_cons]
    congr 1
    ring

theorem row_term_sum_fin (rbar : ℚ) (row : TableRow) (q : ℚ)
    (h : rbar * (spec_r_i row - 1) ≠ 0) :
    row_term_sum rbar row (.fin q) = .fin (q + spec_row_sum rbar row) := by
  unfold row_term_sum spec_row_sum
  exact fold_paik_fin rbar (spec_r_i row) h row.counts q

theorem fold_rows_fin (rbar : ℚ) (t : List TableRow) (q : ℚ)
    (h : ∀ row ∈ t, rbar * (spec_r_i row - 1) ≠ 0) :
    t.foldl (fun acc row => row_term_sum rbar row acc) (.fin q)
      = .fin (q + (t.map (fun row => spec_row_sum rbar row)).sum) := by
  induction t generalizing q with
  | nil => simp
  | cons row rest ih =>
    rw [List.foldl_cons, row_term_sum_fin rbar row q (h row (by simp)),
      ih (q + spec_row_sum rbar row) (fun r hr => h r (by simp [hr])),
      List.map_cons, List.sum_cons]
    congr 1
    ring

theorem pi_list_ok (t : List TableRow) (js : List ℕ) (h : total_num_ratings t ≠ 0) :
    pi_list t js = .ok (js.map (fun j => ((col_sum t j : ℚ) / (total_num_ratings t : ℚ)))) := by
  induction js with
  | nil => simp [pi_list]
  | cons j rest ih => simp [pi_list, h, ih]

theorem alpha_from_table_eq_spec (vocab : List String) (t : List TableRow)
    (hn : 1 ≤ t.length)
    (hlen : ∀ row ∈ t, row.counts.length = vocab.length)
    (hri : ∀ row ∈ t, 2 ≤ row.counts.sum)
    (hrbar : 0 < spec_r_bar t)
    (hpe : spec_p_e vocab t ≠ 1) :
    alpha_from_table vocab t = .ok (.fin (spec_alpha vocab t)) := by
  have hne0 : ¬ t.length = 0 := by omega
  have hnq : ((t.length : ℚ)) ≠ 0 := Nat.cast_ne_zero.mpr (by omega)
  have hrbarne : spec_r_bar t ≠ 0 := ne_of_gt hrbar
  have hden : ∀ row ∈ t, spec_r_bar t * (spec_r_i row - 1) ≠ 0 := by
    intro row hr
    have h2 : (2 : ℚ) ≤ spec_r_i row := by
      unfold spec_r_i; exact_mod_cast hri row hr
    exact mul_ne_zero hrbarne (by intro hc; rw [sub_eq_zero] at hc; rw [hc] at h2; norm_num at h2)
  have htot : total_num_ratings t ≠ 0 := by
    cases t with
    | nil => simp at hn
    | cons r rest =>
      have h2 := hri r (by simp)
      unfold total_num_ratings
      simp only [List.map_cons, List.sum_cons]
      omega
  have hfold := fold_rows_fin (r_bar t) t 0 (by rw [r_bar_eq_spec]; exact hden)
  have hpi := pi_list_ok t (List.range vocab.length) htot
  have hnrbar : ((t.length : ℚ)) * r_bar t ≠ 0 := by
    rw [r_bar_eq_spec]; exact mul_ne_zero hnq hrbarne
  have hpemap : (((List.range vocab.length).map
      (fun j => ((col_sum t j : ℚ) / (total_num_ratings t : ℚ)))).map (fun x => x * x)).sum
      = spec_p_e vocab t := by
    unfold spec_p_e spec_PI
    rw [List.map_map]
    rfl
  have hsub : (1 : ℚ) - spec_p_e vocab t ≠ 0 := sub_ne_zero.mpr (Ne.symm hpe)
  unfold alpha_from_table
  rw [if_neg hne0]
  simp only [hfold, hpi, np_div_fin _ _ hnq, np_div_fin _ _ hnrbar, np_sub_fin, np_mul_fin,
    np_add_fin, hpemap, np_div_fin _ _ hsub]
  unfold spec_alpha spec_p_a spec_p_primea
  rw [r_bar_eq_spec, zero_add]

/-- C1: for every agreement table with at least one row, in which each row
has one count cell per vocabulary label and a total label-assignment count
r_i of at least 2, with r_bar > 0 and p_e ≠ 1, the coefficient stage of
`calculate_irr` returns exactly the spec's alpha = (p_a - p_e) / (1 - p_e)
built from p_aik = r_ik (rbar_ik - 1) / (r_bar (r_i - 1)) with rbar_ik =
r_ik, p_primea, p_a = p_primea (1 - 1/(n r_bar)) + 1/(n r_bar), and p_e the
sum over labels of the squared marginal proportions. -/
theorem c1_alpha_formula (vocab : List String) (t : List TableRow)
    (hn : 1 ≤ t.length)
    (hlen : ∀ row ∈ t, row.counts.length = vocab.length)
    (hri : ∀ row ∈ t, 2 ≤ row.counts.sum)
    (hrbar : 0 < spec_r_bar t)
    (hpe : spec_p_e vocab t ≠ 1) :
    alpha_from_table vocab t = .ok (.fin (spec_alpha vocab t)) :=
  alpha_from_table_eq_spec vocab t hn hlen hri hrbar hpe

theorem c1_alpha_formula_witness :
    alpha_from_table ["a", "b", "c"] [⟨"x", [2, 2, 0], 2⟩, ⟨"y", [1, 1, 0], 2⟩]
      = .ok (.fin (spec_alpha ["a", "b", "c"] [⟨"x", [2, 2, 0], 2⟩, ⟨"y", [1, 1, 0], 2⟩])) :=
  c1_alpha_formula ["a", "b", "c"] [⟨"x", [2, 2, 0], 2⟩, ⟨"y", [1, 1, 0], 2⟩]
    (by decide) (by decide) (by decide)
    (by norm_num [spec_r_bar])
    (by norm_num [spec_p_e, spec_PI, col_sum, total_num_ratings, List.range_succ])

theorem alookup_append (m1 m2 : HMap) (k : String) :
    alookup (m1 ++ m2) k
      = match alookup m1 k with
        | some x => some x
        | none => alookup m2 k := by
  induction m1 with
  | nil => simp [alookup]
  | cons e rest ih =>
    by_cases he : e.1 = k
    · simp [alookup, he]
    · simp [alookup, he, ih]

theorem has_key_eq_isSome (m : HMap) (k : String) :
    has_key m k = (alookup m k).isSome := by
  induction m with
  | nil => rfl
  | cons e rest ih =>
    by_cases he : e.1 = k <;> simp [has_key, alookup, he, ih]

theorem alookup_none_of_not_has_key (m : HMap) (k : String) (h : ¬ has_key m k = true) :
    alookup m k = none := by
  rw [has_key_eq_isSome] at h
  cases hm : alookup m k with
  | none => rfl
  | some x => rw [hm] at h; simp at h

theorem alookup_map_update1 (m : HMap) (k : String) (v : List String)
    (h : has_key m k = true) :
    alookup (m.map (fun e => if e.1 = k then (k, v, ([] : List String)) else e)) k
      = some (v, []) := by
  induction m with
  | nil => simp [has_key] at h
  | cons e rest ih =>
    by_cases he : e.1 = k
    · simp [alookup, he]
    · have hr : has_key rest k = true := by
        unfold has_key at h
        rwa [if_neg he] at h
      simp [alookup, he, ih hr]

theorem alookup_map_update1_ne (m : HMap) (k : String) (v : List String) (j : String)
    (hj : ¬ j = k) :
    alookup (m.map (fun e => if e.1 = k then (k, v, ([] : List String)) else e)) j
      = alookup m j := by
  induction m with
  | nil => simp [alookup]
  | cons e rest ih =>
    by_cases he : e.1 = k
    · have hkj : ¬ (k = j) := fun hh => hj hh.symm
      simp [alookup, he, hkj, ih]
    · by_cases hej : e.1 = j <;> simp [alookup, he, hej, hj, ih]

theorem alookup_set1_self (m : HMap) (k : String) (v : List String) :
    alookup (set1 m k v) k = some (v, []) := by
  unfold set1
  by_cases h : has_key m k = true
  · rw [if_pos h]
    exact alookup_map_update1 m k v h
  · rw [if_neg h, alookup_append, alookup_none_of_not_has_key m k h]
    simp [alookup]

theorem alookup_set1_ne (m : HMap) (k : String) (v : List String) (j : String)
    (hj : ¬ j = k) :
    alookup (set1 m k v) j = alookup m j := by
  unfold set1
  by_cases h : has_key m k = true
  · rw [if_pos h]
    exact alookup_map_update1_ne m k v j hj
  · rw [if_neg h, alookup_append]
    cases hm : alookup m j with
    | some x => rfl
    | none =>
      have hkj : ¬ (k = j) := fun hh => hj hh.symm
      simp [alookup, hkj]

theorem alookup_map_update2 (m : HMap) (k : String) (v : List String)
    (h : has_key m k = true) :
    alookup (m.map (fun e => if e.1 = k then (e.1, e.2.1, v) else e)) k
      = some ((((alookup m k).map Prod.fst).getD []), v) := by
  induction m with
  | nil => simp [has_key] at h
  | cons e rest ih =>
    by_cases he : e.1 = k
    · simp [alookup, he]
    · have hr : has_key rest k = true := by
        unfold has_key at h
        rwa [if_neg he] at h
      simp [alookup, he, ih hr]

theorem alookup_map_update2_ne (m : HMap) (k : String) (v : List String) (j : String)
    (hj : ¬ j = k) :
    alookup (m.map (fun e => if e.1 = k then (e.1, e.2.1, v) else e)) j
      = alookup m j := by
  induction m with
  | nil => simp [alookup]
  | cons e rest ih =>
    by_cases he : e.1 = k
    · have hkj : ¬ (k = j) := fun hh => hj hh.symm
      simp [alookup, he, hkj, ih]
    · by_cases hej : e.1 = j <;> simp [alookup, he, hej, hj, ih]

theorem alookup_set2_self (m : HMap) (k : String) (v : List String) :
    alookup (set2 m k v) k = some ((((alookup m k).map Prod.fst).getD []), v) := by
  unfold set2
  by_cases h : has_key m k = true
  · rw [if_pos h]
    exact alookup_map_update2 m k v h
  · rw [if_neg h, alookup_append, alookup_none_of_not_has_key m k h]
    simp [alookup, alookup_none_of_not_has_key m k h]

theorem alookup_set2_ne (m : HMap) (k : String) (v : List String) (j : String)
    (hj : ¬ j = k) :
    alookup (set2 m k v) j = alookup m j := by
  unfold set2
  by_cases h : has_key m k = true
  · rw [if_pos h]
    exact alookup_map_update2_ne m k v j hj
  · rw [if_neg h, alookup_append]
    cases hm : alookup m j with
    | some x => rfl
    | none =>
      have hkj : ¬ (k = j) := fun hh => hj hh.symm
      simp [alookup, hkj]

theorem last_labels_cons (a : RaterDataRow) (rest : List RaterDataRow) (k : String) :
    last_labels (a :: rest) k
      = match last_labels rest k with
        | some v => some v
        | none => if py_strip a.data = k then some (_process_labels a.labels) else none := rfl

theorem alookup_pass1 (r : List RaterDataRow) (m : HMap) (k : String) :
    alookup (pass1 m r) k
      = match last_labels r k with
        | some v => some (v, [])
        | none => alookup m k := by
  induction r generalizing m with
  | nil => simp [pass1, last_labels]
  | cons a rest ih =>
    rw [pass1, ih, last_labels_cons]
    cases hrest : last_labels rest k with
    | some v => simp
    | none =>
      simp only []
      by_cases hk : py_strip a.data = k
      · subst hk
        simp [alookup_set1_self]
      · simp [if_neg hk, alookup_set1_ne _ _ _ _ (fun hh => hk hh.symm)]

theorem alookup_pass2 (r : List RaterDataRow) (m : HMap) (k : String) :
    alookup (pass2 m r) k
      = match last_labels r k with
        | some w => some ((((alookup m k).map Prod.fst).getD []), w)
        | none => alookup m k := by
  induction r generalizing m with
  | nil => simp [pass2, last_labels]
  | cons a rest ih =>
    rw [pass2, ih, last_labels_cons]
    cases hrest : last_labels rest k with
    | some v =>
      simp only []
      by_cases hk : py_strip a.data = k
      · subst hk
        simp [alookup_set2_self]
      · rw [alookup_set2_ne _ _ _ _ (fun hh => hk hh.symm)]
    | none =>
      simp only []
      by_cases hk : py_strip a.data = k
      · subst hk
        simp [alookup_set2_self]
      · simp [if_neg hk, alookup_set2_ne _ _ _ _ (fun hh => hk hh.symm)]

theorem alookup_hash_map (r1 r2 : List RaterDataRow) (k : String) :
    alookup (hash_map r1 r2) k = combine12 (last_labels r1 k) (last_labels r2 k) := by
  unfold hash_map
  rw [alookup_pass2, alookup_pass1]
  cases h2 : last_labels r2 k <;> cases h1 : last_labels r1 k <;> simp [combine12, alookup]

theorem has_key_iff_mem (m : HMap) (k : String) :
    has_key m k = true ↔ k ∈ hkeys m := by
  induction m with
  | nil => simp [has_key, hkeys]
  | cons e rest ih =>
    unfold has_key
    by_cases he : e.1 = k
    · rw [if_pos he]
      simp only [hkeys, List.map_cons, List.mem_cons]
      exact ⟨fun _ => Or.inl he.symm, fun _ => trivial⟩
    · rw [if_neg he]
      simp only [hkeys, List.map_cons, List.mem_cons]
      constructor
      · intro h
        exact Or.inr (ih.mp h)
      · intro h
        rcases h with h | h
        · exact absurd h.symm he
        · exact ih.mpr h

theorem hkeys_set1 (m : HMap) (k : String) (v : List String) :
    hkeys (set1 m k v) = if has_key m k then hkeys m else hkeys m ++ [k] := by
  unfold set1 hkeys
  by_cases h : has_key m k = true
  · rw [if_pos h, if_pos h, List.map_map]
    apply List.map_congr_left
    intro e he
    by_cases he1 : e.1 = k <;> simp [he1]
  · rw [if_neg h, if_neg h]
    simp

theorem hkeys_set2 (m : HMap) (k : String) (v : List String) :
    hkeys (set2 m k v) = if has_key m k then hkeys m else hkeys m ++ [k] := by
  unfold set2 hkeys
  by_cases h : has_key m k = true
  · rw [if_pos h, if_pos h, List.map_map]
    apply List.map_congr_left
    intro e he
    by_cases he1 : e.1 = k <;> simp [he1]
  · rw [if_neg h, if_neg h]
    simp

theorem hkeys_set1_nodup (m : HMap) (k : String) (v : List String)
    (h : (hkeys m).Nodup) : (hkeys (set1 m k v)).Nodup := by
  rw [hkeys_set1]
  by_cases hk : has_key m k = true
  · rwa [if_pos hk]
  · rw [if_neg hk]
    refine List.Nodup.append h (List.nodup_singleton k) ?_
    intro x hx hxk
    rw [List.mem_singleton] at hxk
    subst hxk
    exact hk ((has_key_iff_mem m x).mpr hx)

theorem hkeys_set2_nodup (m : HMap) (k : String) (v : List String)
    (h : (hkeys m).Nodup) : (hkeys (set2 m k v)).Nodup := by
  rw [hkeys_set2]
  by_cases hk : has_key m k = true
  · rwa [if_pos hk]
  · rw [if_neg hk]
    refine List.Nodup.append h (List.nodup_singleton k) ?_
    intro x hx hxk
    rw [List.mem_singleton] at hxk
    subst hxk
    exact hk ((has_key_iff_mem m x).mpr hx)

theorem mem_hkeys_set1 (m : HMap) (k : String) (v : List String) (j : String)
    (h : j ∈ hkeys m) : j ∈ hkeys (set1 m k v) := by
  rw [hkeys_set1]
  by_cases hk : has_key m k = true
  · rwa [if_pos hk]
  · rw [if_neg hk]
    exact List.mem_append_left _ h

theorem mem_hkeys_set2 (m : HMap) (k : String) (v : List String) (j : String)
    (h : j ∈ hkeys m) : j ∈ hkeys (set2 m k v) := by
  rw [hkeys_set2]
  by_cases hk : has_key m k = true
  · rwa [if_pos hk]
  · rw [if_neg hk]
    exact List.mem_append_left _ h

theorem mem_hkeys_set1_self (m : HMap) (k : String) (v : List String) :
    k ∈ hkeys (set1 m k v) := by
  rw [hkeys_set1]
  by_cases hk : has_key m k = true
  · rw [if_pos hk]
    exact (has_key_iff_mem m k).mp hk
  · rw [if_neg hk]
    exact List.mem_append_right _ (List.mem_singleton_self k)

theorem mem_hkeys_set2_self (m : HMap) (k : String) (v : List String) :
    k ∈ hkeys (set2 m k v) := by
  rw [hkeys_set2]
  by_cases hk : has_key m k = true
  · rw [if_pos hk]
    exact (has_key_iff_mem m k).mp hk
  · rw [if_neg hk]
    exact List.mem_append_right _ (List.mem_singleton_self k)

theorem hkeys_pass1_nodup (r : List RaterDataRow) (m : HMap)
    (h : (hkeys m).Nodup) : (hkeys (pass1 m r)).Nodup := by
  induction r generalizing m with
  | nil => exact h
  | cons a rest ih => exact ih _ (hkeys_set1_nodup _ _ _ h)

theorem hkeys_pass2_nodup (r : List RaterDataRow) (m : HMap)
    (h : (hkeys m).Nodup) : (hkeys (pass2 m r)).Nodup := by
  induction r generalizing m with
  | nil => exact h
  | cons a rest ih => exact ih _ (hkeys_set2_nodup _ _ _ h)

theorem hash_map_keys_nodup (r1 r2 : List RaterDataRow) :
    (hkeys (hash_map r1 r2)).Nodup := by
  unfold hash_map
  exact hkeys_pass2_nodup _ _ (hkeys_pass1_nodup _ _ (by simp [hkeys]))

theorem mem_hkeys_pass1 (r : List RaterDataRow) (m : HMap) (j : String)
    (h : j ∈ hkeys m) : j ∈ hkeys (pass1 m r) := by
  induction r generalizing m with
  | nil => exact h
  | cons a rest ih => exact ih _ (mem_hkeys_set1 _ _ _ _ h)

theorem mem_hkeys_pass2 (r : List RaterDataRow) (m : HMap) (j : String)
    (h : j ∈ hkeys m) : j ∈ hkeys (pass2 m r) := by
  induction r generalizing m with
  | nil => exact h
  | cons a rest ih => exact ih _ (mem_hkeys_set2 _ _ _ _ h)

theorem pass1_covers (r : List RaterDataRow) (m : HMap) (a : RaterDataRow)
    (ha : a ∈ r) : py_strip a.data ∈ hkeys (pass1 m r) := by
  induction r generalizing m with
  | nil => simp at ha
  | cons b rest ih =>
    rw [pass1]
    rcases List.mem_cons.mp ha with hb | hb
    · subst hb
      exact mem_hkeys_pass1 _ _ _ (mem_hkeys_set1_self _ _ _)
    · exact ih _ hb

theorem pass2_covers (r : List RaterDataRow) (m : HMap) (a : RaterDataRow)
    (ha : a ∈ r) : py_strip a.data ∈ hkeys (pass2 m r) := by
  induction r generalizing m with
  | nil => simp at ha
  | cons b rest ih =>
    rw [pass2]
    rcases List.mem_cons.mp ha with hb | hb
    · subst hb
      exact mem_hkeys_pass2 _ _ _ (mem_hkeys_set2_self _ _ _)
    · exact ih _ hb

theorem hash_map_covers (r1 r2 : List RaterDataRow) (a : RaterDataRow)
    (ha : a ∈ r1 ++ r2) : py_strip a.data ∈ hkeys (hash_map r1 r2) := by
  unfold hash_map
  rcases List.mem_append.mp ha with h1 | h2
  · exact mem_hkeys_pass2 _ _ _ (pass1_covers _ _ _ h1)
  · exact pass2_covers _ _ _ h2

theorem last_labels_mem (r : List RaterDataRow) (k : String) (v : List String)
    (h : last_labels r k = some v) :
    ∃ a ∈ r, py_strip a.data = k ∧ v = _process_labels a.labels := by
  induction r with
  | nil => simp [last_labels] at h
  | cons a rest ih =>
    rw [last_labels_cons] at h
    cases hrest : last_labels rest k with
    | some w =>
      rw [hrest] at h
      have h2 : some w = some v := h
      obtain ⟨b, hb, hbk, hbv⟩ := ih (hrest.trans (by rw [Option.some.inj h2]))
      exact ⟨b, List.mem_cons_of_mem a hb, hbk, hbv⟩
    | none =>
      rw [hrest] at h
      have h2 : (if py_strip a.data = k then some (_process_labels a.labels) else none)
          = some v := h
      by_cases hk : py_strip a.data = k
      · rw [if_pos hk] at h2
        exact ⟨a, List.mem_cons_self a rest, hk, (Option.some.inj h2).symm⟩
      · rw [if_neg hk] at h2
        simp at h2

theorem mem_alookup (m : HMap) (e : HMEntry) (hnd : (hkeys m).Nodup) (he : e ∈ m) :
    alookup m e.1 = some e.2 := by
  induction m with
  | nil => simp at he
  | cons e0 rest ih =>
    rcases List.mem_cons.mp he with h0 | h0
    · subst h0
      simp [alookup]
    · have hne : ¬ e0.1 = e.1 := by
        intro hh
        have : e.1 ∈ hkeys rest := List.mem_map_of_mem (fun x => x.1) h0
        rw [hkeys, List.map_cons, List.nodup_cons] at hnd
        exact hnd.1 (hh ▸ this)
      have hnd2 : (hkeys rest).Nodup := by
        rw [hkeys, List.map_cons, List.nodup_cons] at hnd
        exact hnd.2
      simp [alookup, hne, ih hnd2 h0]

theorem incr_ok_mem (vocab : List String) (counts : List Nat) (tok : String) (cs : List Nat)
    (h : incr vocab counts tok = .ok cs) : tok ∈ vocab := by
  induction vocab generalizing counts cs with
  | nil => simp [incr] at h
  | cons v vrest ih =>
    cases counts with
    | nil => simp [incr] at h
    | cons c crest =>
      unfold incr at h
      by_cases hv : v = tok
      · exact hv ▸ List.mem_cons_self v vrest
      · rw [if_neg hv] at h
        cases hrec : incr vrest crest tok with
        | ok cs2 => exact List.mem_cons_of_mem v (ih crest cs2 hrec)
        | error e2 => rw [hrec] at h; simp at h

theorem incr_ok_length (vocab : List String) (counts : List Nat) (tok : String) (cs : List Nat)
    (h : incr vocab counts tok = .ok cs) : cs.length = counts.length := by
  induction vocab generalizing counts cs with
  | nil => simp [incr] at h
  | cons v vrest ih =>
    cases counts with
    | nil => simp [incr] at h
    | cons c crest =>
      unfold incr at h
      by_cases hv : v = tok
      · rw [if_pos hv] at h
        rw [← Except.ok.inj h]
        rfl
      · rw [if_neg hv] at h
        cases hrec : incr vrest crest tok with
        | ok cs2 =>
          rw [hrec] at h
          rw [← Except.ok.inj h]
          simp [ih crest cs2 hrec]
        | error e2 => rw [hrec] at h; simp at h

theorem incr_ok_sum (vocab : List String) (counts : List Nat) (tok : String) (cs : List Nat)
    (h : incr vocab counts tok = .ok cs) : cs.sum = counts.sum + 1 := by
  induction vocab generalizing counts cs with
  | nil => simp [incr] at h
  | cons v vrest ih =>
    cases counts with
    | nil => simp [incr] at h
    | cons c crest =>
      unfold incr at h
      by_cases hv : v = tok
      · rw [if_pos hv] at h
        rw [← Except.ok.inj h]
        simp [List.sum_cons]
        omega
      · rw [if_neg hv] at h
        cases hrec : incr vrest crest tok with
        | ok cs2 =>
          rw [hrec] at h
          rw [← Except.ok.inj h]
          simp [List.sum_cons, ih crest cs2 hrec]
          omega
        | error e2 => rw [hrec] at h; simp at h

theorem incr_error_shape (vocab : List String) (counts : List Nat) (tok : String) (e : PyErr)
    (h : incr vocab counts tok = .error e) : e = .keyError tok := by
  induction vocab generalizing counts with
  | nil =>
    unfold incr at h
    exact (Except.error.inj h).symm
  | cons v vrest ih =>
    cases counts with
    | nil =>
      unfold incr at h
      exact (Except.error.inj h).symm
    | cons c crest =>
      unfold incr at h
      by_cases hv : v = tok
      · rw [if_pos hv] at h; simp at h
      · rw [if_neg hv] at h
        cases hrec : incr vrest crest tok with
        | ok cs2 => rw [hrec] at h; simp at h
        | error e2 =>
          rw [hrec] at h
          have he : e2 = e := Except.error.inj h
          subst he
          exact ih crest hrec

theorem incr_ok_of_mem (vocab : List String) (counts : List Nat) (tok : String)
    (hlen : counts.length = vocab.length) (hmem : tok ∈ vocab) :
    ∃ cs, incr vocab counts tok = .ok cs := by
  induction vocab generalizing counts with
  | nil => simp at hmem
  | cons v vrest ih =>
    cases counts with
    | nil => simp at hlen
    | cons c crest =>
      unfold incr
      by_cases hv : v = tok
      · rw [if_pos hv]
        exact ⟨(c + 1) :: crest, rfl⟩
      · rw [if_neg hv]
        have hmem2 : tok ∈ vrest := by
          rcases List.mem_cons.mp hmem with hh | hh
          · exact absurd hh.symm hv
          · exact hh
        obtain ⟨cs2, hcs2⟩ := ih crest (by simpa using hlen) hmem2
        rw [hcs2]
        exact ⟨c :: cs2, rfl⟩

theorem incr_ok_getD (vocab : List String) (counts : List Nat) (tok : String) (cs : List Nat)
    (h : incr vocab counts tok = .ok cs) (j : ℕ) :
    cs.getD j 0 = counts.getD j 0 + (if tok_idx vocab tok = some j then 1 else 0) := by
  induction vocab generalizing counts cs j with
  | nil => simp [incr] at h
  | cons v vrest ih =>
    cases counts with
    | nil => simp [incr] at h
    | cons c crest =>
      unfold incr at h
      unfold tok_idx
      by_cases hv : v = tok
      · rw [if_pos hv] at h
        rw [← Except.ok.inj h, if_pos hv]
        cases j with
        | zero => simp
        | succ i => simp
      · rw [if_neg hv] at h
        rw [if_neg hv]
        cases hrec : incr vrest crest tok with
        | error e2 => rw [hrec] at h; simp at h
        | ok cs2 =>
          rw [hrec] at h
          rw [← Except.ok.inj h]
          cases j with
          | zero =>
            cases hti : tok_idx vrest tok <;> simp [hti]
          | succ i =>
            have := ih crest cs2 hrec i
            cases hti : tok_idx vrest tok with
            | none => simpa [hti] using this
            | some i2 =>
              rw [hti] at this
              by_cases hi : i2 = i
              · subst hi
                simpa [hti] using this
              · have hne : ¬ (some (i2 + 1) = some (i + 1)) := by simp [hi]
                have hne2 : ¬ (some i2 = some i) := by simp [hi]
                rw [if_neg hne2] at this
                simp only [List.getD_cons_succ, Option.map_some]
                rw [if_neg (by simpa using hne)]
                exact this

theorem row_counts_ok_length (vocab : List String) (counts : List Nat) (toks : List String)
    (cs : List Nat) (h : row_counts vocab counts toks = .ok cs) :
    cs.length = counts.length := by
  induction toks generalizing counts with
  | nil =>
    unfold row_counts at h
    rw [← Except.ok.inj h]
  | cons tok rest ih =>
    unfold row_counts at h
    cases hrec : incr vocab counts tok with
    | error e2 => rw [hrec] at h; simp at h
    | ok cs1 =>
      rw [hrec] at h
      rw [ih cs1 h]
      exact incr_ok_length vocab counts tok cs1 hrec

theorem row_counts_ok_sum (vocab : List String) (counts : List Nat) (toks : List String)
    (cs : List Nat) (h : row_counts vocab counts toks = .ok cs) :
    cs.sum = counts.sum + toks.length := by
  induction toks generalizing counts with
  | nil =>
    unfold row_counts at h
    rw [← Except.ok.inj h]
    simp
  | cons tok rest ih =>
    unfold row_counts at h
    cases hrec : incr vocab counts tok with
    | error e2 => rw [hrec] at h; simp at h
    | ok cs1 =>
      rw [hrec] at h
      rw [ih cs1 h, incr_ok_sum vocab counts tok cs1 hrec]
      simp
      omega

theorem row_counts_ok_mem (vocab : List String) (counts : List Nat) (toks : List String)
    (cs : List Nat) (h : row_counts vocab counts toks = .ok cs) :
    ∀ tok ∈ toks, tok ∈ vocab := by
  induction toks generalizing counts with
  | nil => simp
  | cons tok rest ih =>
    unfold row_counts at h
    cases hrec : incr vocab counts tok with
    | error e2 => rw [hrec] at h; simp at h
    | ok cs1 =>
      rw [hrec] at h
      intro tok2 htok2
      rcases List.mem_cons.mp htok2 with hh | hh
      · subst hh
        exact incr_ok_mem vocab counts tok2 cs1 hrec
      · exact ih cs1 h tok2 hh

theorem row_counts_ok_getD (vocab : List String) (counts : List Nat) (toks : List String)
    (cs : List Nat) (h : row_counts vocab counts toks = .ok cs) (j : ℕ) :
    cs.getD j 0 = counts.getD j 0 + toks.countP (fun tok => tok_idx vocab tok == some j) := by
  induction toks generalizing counts with
  | nil =>
    unfold row_counts at h
    rw [← Except.ok.inj h]
    simp
  | cons tok rest ih =>
    unfold row_counts at h
    cases hrec : incr vocab counts tok with
    | error e2 => rw [hrec] at h; simp at h
    | ok cs1 =>
      rw [hrec] at h
      rw [ih cs1 h, incr_ok_getD vocab counts tok cs1 hrec j, List.countP_cons]
      by_cases hidx : tok_idx vocab tok = some j
      · simp [hidx]
        omega
      · simp [hidx]

theorem row_counts_error_shape (vocab : List String) (counts : List Nat) (toks : List String)
    (e : PyErr) (hlen : counts.length = vocab.length)
    (h : row_counts vocab counts toks = .error e) :
    ∃ tok, tok ∈ toks ∧ ¬ tok ∈ vocab ∧ e = .keyError tok := by
  induction toks generalizing counts with
  | nil => simp [row_counts] at h
  | cons tok rest ih =>
    unfold row_counts at h
    cases hrec : incr vocab counts tok with
    | error e2 =>
      rw [hrec] at h
      have he : e2 = e := Except.error.inj h
      subst he
      refine ⟨tok, List.mem_cons_self tok rest, ?_, incr_error_shape vocab counts tok e2 hrec⟩
      intro hmem
      obtain ⟨cs2, hcs2⟩ := incr_ok_of_mem vocab counts tok hlen hmem
      rw [hcs2] at hrec
      simp at hrec
    | ok cs1 =>
      rw [hrec] at h
      obtain ⟨tok2, hmem, hnv, he⟩ :=
        ih cs1 ((incr_ok_length vocab counts tok cs1 hrec).trans hlen) h
      exact ⟨tok2, List.mem_cons_of_mem tok hmem, hnv, he⟩

theorem row_counts_ok_of_all_mem (vocab : List String) (counts : List Nat) (toks : List String)
    (hlen : counts.length = vocab.length) (hall : ∀ tok ∈ toks, tok ∈ vocab) :
    ∃ cs, row_counts vocab counts toks = .ok cs := by
  induction toks generalizing counts with
  | nil => exact ⟨counts, rfl⟩
  | cons tok rest ih =>
    obtain ⟨cs1, hcs1⟩ := incr_ok_of_mem vocab counts tok hlen (hall tok (List.mem_cons_self tok rest))
    obtain ⟨cs, hcs⟩ := ih cs1 ((incr_ok_length vocab counts tok cs1 hcs1).trans hlen)
      (fun tok2 h2 => hall tok2 (List.mem_cons_of_mem tok h2))
    refine ⟨cs, ?_⟩
    unfold row_counts
    rw [hcs1]
    exact hcs

theorem getD_replicate_zero (n j : ℕ) : (List.replicate n (0 : ℕ)).getD j 0 = 0 := by
  induction n generalizing j with
  | zero => simp
  | succ n ih =>
    cases j with
    | zero => simp [List.replicate]
    | succ i => simp [List.replicate, ih]

theorem list_eq_of_getD (l1 l2 : List Nat) (hlen : l1.length = l2.length)
    (h : ∀ j, l1.getD j 0 = l2.getD j 0) : l1 = l2 := by
  induction l1 generalizing l2 with
  | nil =>
    cases l2 with
    | nil => rfl
    | cons b bs => simp at hlen
  | cons a as ih =>
    cases l2 with
    | nil => simp at hlen
    | cons b bs =>
      have h0 := h 0
      simp at h0
      rw [h0, ih bs (by simpa using hlen) (fun j => by simpa using h (j + 1))]

theorem tok_idx_inj (vocab : List String) (t1 t2 : String) (j : ℕ)
    (h1 : tok_idx vocab t1 = some j) (h2 : tok_idx vocab t2 = some j) : t1 = t2 := by
  induction vocab generalizing j with
  | nil => simp [tok_idx] at h1
  | cons v rest ih =>
    unfold tok_idx at h1 h2
    by_cases hv1 : v = t1
    · rw [if_pos hv1] at h1
      by_cases hv2 : v = t2
      · rw [← hv1, ← hv2]
      · rw [if_neg hv2] at h2
        rw [← Option.some.inj h1] at h2
        cases hr : tok_idx rest t2 with
        | none => rw [hr] at h2; simp at h2
        | some i => rw [hr] at h2; simp at h2
    · rw [if_neg hv1] at h1
      by_cases hv2 : v = t2
      · rw [if_pos hv2] at h2
        rw [← Option.some.inj h2] at h1
        cases hr : tok_idx rest t1 with
        | none => rw [hr] at h1; simp at h1
        | some i => rw [hr] at h1; simp at h1
      · rw [if_neg hv2] at h2
        cases hr1 : tok_idx rest t1 with
        | none => rw [hr1] at h1; simp at h1
        | some i1 =>
          cases hr2 : tok_idx rest t2 with
          | none => rw [hr2] at h2; simp at h2
          | some i2 =>
            rw [hr1] at h1
            rw [hr2] at h2
            simp at h1 h2
            have hi : i2 = i1 := by omega
            exact ih i1 hr1 (by rw [hr2, hi])

theorem countP_tok_idx_le_one (vocab : List String) (l : List String) (j : ℕ)
    (hnd : l.Nodup) : l.countP (fun tok => tok_idx vocab tok == some j) ≤ 1 := by
  induction l with
  | nil => simp
  | cons a rest ih =>
    rw [List.countP_cons]
    rw [List.nodup_cons] at hnd
    by_cases ha : tok_idx vocab a = some j
    · have hzero : rest.countP (fun tok => tok_idx vocab tok == some j) = 0 := by
        rw [List.countP_eq_zero]
        intro b hb
        simp only [beq_iff_eq]
        intro hbj
        exact hnd.1 ((tok_idx_inj vocab b a j hbj ha) ▸ hb)
      simp [ha, hzero]
    · simp only [beq_iff_eq, ha]
      simp
      exact ih hnd.2

theorem mk_row_ok_elim (vocab : List String) (e : HMEntry) (r : TableRow)
    (h : mk_row vocab e = .ok r) :
    row_counts vocab (List.replicate vocab.length 0) (e.2.1 ++ e.2.2) = .ok r.counts
    ∧ r.data = e.1
    ∧ r.num_rater = (if e.2.1.isEmpty then 0 else 1) + (if e.2.2.isEmpty then 0 else 1) := by
  unfold mk_row at h
  cases hrc : row_counts vocab (List.replicate vocab.length 0) (e.2.1 ++ e.2.2) with
  | error err => rw [hrc] at h; simp at h
  | ok cs =>
    rw [hrc] at h
    rw [← Except.ok.inj h]
    exact ⟨rfl, rfl, rfl⟩

theorem mk_row_error_shape (vocab : List String) (e : HMEntry) (err : PyErr)
    (h : mk_row vocab e = .error err) :
    ∃ tok, tok ∈ e.2.1 ++ e.2.2 ∧ ¬ tok ∈ vocab ∧ err = .keyError tok := by
  unfold mk_row at h
  cases hrc : row_counts vocab (List.replicate vocab.length 0) (e.2.1 ++ e.2.2) with
  | ok cs => rw [hrc] at h; simp at h
  | error err2 =>
    rw [hrc] at h
    have he : err2 = err := Except.error.inj h
    subst he
    exact row_counts_error_shape vocab _ _ err2 (by simp) hrc

theorem mk_row_ok_of_all_mem (vocab : List String) (e : HMEntry)
    (hall : ∀ tok ∈ e.2.1 ++ e.2.2, tok ∈ vocab) :
    ∃ r, mk_row vocab e = .ok r := by
  obtain ⟨cs, hcs⟩ := row_counts_ok_of_all_mem vocab (List.replicate vocab.length 0)
    (e.2.1 ++ e.2.2) (by simp) hall
  refine ⟨⟨e.1, cs, (if e.2.1.isEmpty then 0 else 1) + (if e.2.2.isEmpty then 0 else 1)⟩, ?_⟩
  unfold mk_row
  rw [hcs]

theorem mk_row_swap_ok (vocab : List String) (k : String) (v w : List String) (r : TableRow)
    (h : mk_row vocab (k, v, w) = .ok r) : mk_row vocab (k, w, v) = .ok r := by
  obtain ⟨hrc, hdata, hnum⟩ := mk_row_ok_elim vocab (k, v, w) r h
  dsimp only at hrc hdata hnum
  have hall : ∀ tok ∈ v ++ w, tok ∈ vocab := row_counts_ok_mem vocab _ _ _ hrc
  have hall2 : ∀ tok ∈ w ++ v, tok ∈ vocab := by
    intro tok htok
    rcases List.mem_append.mp htok with hh | hh
    · exact hall tok (List.mem_append_right v hh)
    · exact hall tok (List.mem_append_left w hh)
  obtain ⟨cs2, hcs2⟩ := row_counts_ok_of_all_mem vocab (List.replicate vocab.length 0) (w ++ v)
    (by simp) hall2
  have hlen1 := row_counts_ok_length vocab _ _ _ hrc
  have hlen2 := row_counts_ok_length vocab _ _ _ hcs2
  have heq : cs2 = r.counts := by
    refine list_eq_of_getD cs2 r.counts (by rw [hlen1, hlen2]) ?_
    intro j
    rw [row_counts_ok_getD vocab _ _ _ hrc j, row_counts_ok_getD vocab _ _ _ hcs2 j,
      List.countP_append, List.countP_append]
    omega
  unfold mk_row
  dsimp only
  rw [hcs2, heq]
  cases r with
  | mk rdata rcounts rnum =>
    simp only at hdata hnum
    simp [hdata, hnum, Nat.add_comm]

theorem build_rows_ok_keys (vocab : List String) (m : HMap) (t : List TableRow)
    (h : build_rows vocab m = .ok t) :
    t.map (fun r => r.data) = hkeys m := by
  induction m generalizing t with
  | nil =>
    unfold build_rows at h
    rw [← Except.ok.inj h]
    rfl
  | cons e rest ih =>
    unfold build_rows at h
    cases hmk : mk_row vocab e with
    | error err => rw [hmk] at h; simp at h
    | ok r =>
      rw [hmk] at h
      cases hb : build_rows vocab rest with
      | error err => rw [hb] at h; simp at h
      | ok rs =>
        rw [hb] at h
        rw [← Except.ok.inj h]
        simp only [List.map_cons, hkeys, ih rs hb, (mk_row_ok_elim vocab e r hmk).2.1]

theorem build_rows_all_ok (vocab : List String) (m : HMap) (t : List TableRow)
    (h : build_rows vocab m = .ok t) :
    ∀ e ∈ m, ∃ r ∈ t, mk_row vocab e = .ok r := by
  induction m generalizing t with
  | nil => simp
  | cons e0 rest ih =>
    unfold build_rows at h
    cases hmk : mk_row vocab e0 with
    | error err => rw [hmk] at h; simp at h
    | ok r =>
      rw [hmk] at h
      cases hb : build_rows vocab rest with
      | error err => rw [hb] at h; simp at h
      | ok rs =>
        rw [hb] at h
        rw [← Except.ok.inj h]
        intro e he
        rcases List.mem_cons.mp he with hh | hh
        · subst hh
          exact ⟨r, List.mem_cons_self r rs, hmk⟩
        · obtain ⟨r2, hr2, hmk2⟩ := ih rs hb e hh
          exact ⟨r2, List.mem_cons_of_mem r hr2, hmk2⟩

theorem build_rows_mem_entry (vocab : List String) (m : HMap) (t : List TableRow)
    (h : build_rows vocab m = .ok t) :
    ∀ r ∈ t, ∃ e ∈ m, mk_row vocab e = .ok r := by
  induction m generalizing t with
  | nil =>
    unfold build_rows at h
    rw [← Except.ok.inj h]
    simp
  | cons e0 rest ih =>
    unfold build_rows at h
    cases hmk : mk_row vocab e0 with
    | error err => rw [hmk] at h; simp at h
    | ok r0 =>
      rw [hmk] at h
      cases hb : build_rows vocab rest with
      | error err => rw [hb] at h; simp at h
      | ok rs =>
        rw [hb] at h
        rw [← Except.ok.inj h]
        intro r hr
        rcases List.mem_cons.mp hr with hh | hh
        · subst hh
          exact ⟨e0, List.mem_cons_self e0 rest, hmk⟩
        · obtain ⟨e2, he2, hmk2⟩ := ih rs hb r hh
          exact ⟨e2, List.mem_cons_of_mem e0 he2, hmk2⟩

theorem build_rows_error_shape (vocab : List String) (m : HMap) (err : PyErr)
    (h : build_rows vocab m = .error err) :
    ∃ tok, ¬ tok ∈ vocab ∧ err = .keyError tok := by
  induction m with
  | nil => simp [build_rows] at h
  | cons e rest ih =>
    unfold build_rows at h
    cases hmk : mk_row vocab e with
    | error err2 =>
      rw [hmk] at h
      have he : err2 = err := Except.error.inj h
      subst he
      obtain ⟨tok, _, hnv, hsh⟩ := mk_row_error_shape vocab e err2 hmk
      exact ⟨tok, hnv, hsh⟩
    | ok r =>
      rw [hmk] at h
      cases hb : build_rows vocab rest with
      | error err2 =>
        rw [hb] at h
        have he : err2 = err := Except.error.inj h
        subst he
        exact ih hb
      | ok rs => rw [hb] at h; simp at h

theorem find_row_cons (r : TableRow) (rest : List TableRow) (k : String) :
    find_row (r :: rest) k = if r.data = k then some r else find_row rest k := rfl

theorem find_row_build (vocab : List String) (m : HMap) (t : List TableRow) (k : String)
    (h : build_rows vocab m = .ok t) :
    find_row t k = (alookup m k).bind (fun e2 => (mk_row vocab (k, e2)).toOption) := by
  induction m generalizing t with
  | nil =>
    unfold build_rows at h
    rw [← Except.ok.inj h]
    simp [find_row, alookup]
  | cons e0 rest ih =>
    unfold build_rows at h
    cases hmk : mk_row vocab e0 with
    | error err => rw [hmk] at h; simp at h
    | ok r0 =>
      rw [hmk] at h
      cases hb : build_rows vocab rest with
      | error err => rw [hb] at h; simp at h
      | ok rs =>
        rw [hb] at h
        rw [← Except.ok.inj h]
        obtain ⟨hrc0, hdata0, hnum0⟩ := mk_row_ok_elim vocab e0 r0 hmk
        by_cases hk : e0.1 = k
        · rw [find_row_cons, if_pos (hdata0.trans hk)]
          unfold alookup
          rw [if_pos hk, Option.some_bind]
          have he0 : (k, e0.2) = e0 := by
            rw [← hk]
          rw [he0, hmk]
          rfl
        · rw [find_row_cons, if_neg (by rw [hdata0]; exact hk)]
          unfold alookup
          rw [if_neg hk]
          exact ih rs hb

/-- C9: for every pair of rater streams, the built agreement table has
pairwise-distinct row keys and contains, for every annotation of either
rater, a row keyed by the stripped raw item key — so two annotations whose
raw keys differ only by surrounding whitespace land in one shared row, never
two. -/
theorem c9_whitespace_canonicalization (p : IRRProcessor) (r1 r2 : RaterData)
    (t : List TableRow) (h : _get_agreement_table p r1 r2 = .ok t) :
    (t.map (fun r => r.data)).Nodup
    ∧ ∀ a ∈ r1.rows ++ r2.rows, py_strip a.data ∈ t.map (fun r => r.data) := by
  unfold _get_agreement_table at h
  by_cases hd : p.config.data_column_name ∈ p.available_labels
  · rw [if_pos hd] at h
    simp at h
  · rw [if_neg hd] at h
    rw [build_rows_ok_keys _ _ _ h]
    exact ⟨hash_map_keys_nodup _ _, fun a ha => hash_map_covers _ _ a ha⟩

theorem c9_whitespace_canonicalization_witness :
    (([⟨"Foo", [2], 2⟩] : List TableRow).map (fun r => r.data)).Nodup
    ∧ ∀ a ∈ (⟨[⟨"a", "Foo "⟩]⟩ : RaterData).rows ++ (⟨[⟨"a", "Foo"⟩]⟩ : RaterData).rows,
        py_strip a.data ∈ ([⟨"Foo", [2], 2⟩] : List TableRow).map (fun r => r.data) :=
  c9_whitespace_canonicalization ⟨["a"], defaultConfig, none⟩ ⟨[⟨"a", "Foo "⟩]⟩
    ⟨[⟨"a", "Foo"⟩]⟩ [⟨"Foo", [2], 2⟩] (by decide)

/-- The keyed row produced from an entry is invariant under swapping the two
raters' token lists (counts merge both lists; num_rater adds two indicators). -/
theorem mk_row_toOption_swap (vocab : List String) (k : String) (v w : List String) :
    (mk_row vocab (k, v, w)).toOption = (mk_row vocab (k, w, v)).toOption := by
  cases hmk : mk_row vocab (k, v, w) with
  | ok r =>
    rw [mk_row_swap_ok vocab k v w r hmk]
  | error err =>
    cases hmk2 : mk_row vocab (k, w, v) with
    | ok r2 =>
      have hs := mk_row_swap_ok vocab k w v r2 hmk2
      rw [hs] at hmk
      simp at hmk
    | error err2 => rfl

/-- C6: the agreement tables built from (A, B) and from (B, A) agree on every
canonical item key: the keyed row (its per-label counts and its num_rater
value) is identical in both results; only the rater-column identities swap. -/
theorem c6_builder_symmetric (p : IRRProcessor) (A B : RaterData) (t1 t2 : List TableRow)
    (h1 : _get_agreement_table p A B = .ok t1)
    (h2 : _get_agreement_table p B A = .ok t2) :
    ∀ k, find_row t1 k = find_row t2 k := by
  intro k
  unfold _get_agreement_table at h1 h2
  by_cases hd : p.config.data_column_name ∈ p.available_labels
  · rw [if_pos hd] at h1
    simp at h1
  · rw [if_neg hd] at h1 h2
    rw [find_row_build _ _ _ k h1, find_row_build _ _ _ k h2,
      alookup_hash_map, alookup_hash_map]
    cases hA : last_labels A.rows k <;> cases hB : last_labels B.rows k <;>
      simp only [combine12, Option.some_bind, Option.none_bind]
    · exact mk_row_toOption_swap p.available_labels k [] _
    · exact mk_row_toOption_swap p.available_labels k _ []
    · exact mk_row_toOption_swap p.available_labels k _ _

theorem c6_builder_symmetric_witness :
    find_row [⟨"x", [1, 0], 1⟩, ⟨"y", [0, 1], 1⟩] "x"
      = find_row [⟨"y", [0, 1], 1⟩, ⟨"x", [1, 0], 1⟩] "x" :=
  c6_builder_symmetric ⟨["a", "b"], defaultConfig, none⟩ ⟨[⟨"a", "x"⟩]⟩ ⟨[⟨"b", "y"⟩]⟩
    [⟨"x", [1, 0], 1⟩, ⟨"y", [0, 1], 1⟩] [⟨"y", [0, 1], 1⟩, ⟨"x", [1, 0], 1⟩]
    (by decide) (by decide) "x"

/-- C10 amended: the unknown-label policy is reject for every token that
survives the per-rater last-occurrence merge: if the merged hash map holds an
out-of-vocabulary token, `_get_agreement_table` raises `KeyError` (naming an
out-of-vocabulary token) and returns no table.  Tokens appearing only in
annotations overwritten by a later annotation of the same rater on the same
item are never looked up. -/
theorem c10_amended (p : IRRProcessor) (r1 r2 : RaterData)
    (hd : ¬ p.config.data_column_name ∈ p.available_labels)
    (h : ∃ e ∈ hash_map r1.rows r2.rows, ∃ tok ∈ e.2.1 ++ e.2.2,
      ¬ tok ∈ p.available_labels) :
    ∃ tok, ¬ tok ∈ p.available_labels
      ∧ _get_agreement_table p r1 r2 = .error (.keyError tok) := by
  unfold _get_agreement_table
  rw [if_neg hd]
  cases hres : build_rows p.available_labels (hash_map r1.rows r2.rows) with
  | ok t =>
    obtain ⟨e, he, tok, htok, hnv⟩ := h
    obtain ⟨r, _, hmk⟩ := build_rows_all_ok _ _ _ hres e he
    obtain ⟨hrc, _, _⟩ := mk_row_ok_elim _ _ _ hmk
    exact absurd (row_counts_ok_mem _ _ _ _ hrc tok htok) hnv
  | error err =>
    obtain ⟨tok, hnv, hsh⟩ := build_rows_error_shape _ _ _ hres
    exact ⟨tok, hnv, by rw [hsh]⟩

theorem c10_amended_witness :
    ∃ tok, ¬ tok ∈ (["a"] : List String)
      ∧ _get_agreement_table ⟨["a"], defaultConfig, none⟩ ⟨[⟨"zzz", "x"⟩]⟩ ⟨[]⟩
          = .error (.keyError tok) :=
  c10_amended ⟨["a"], defaultConfig, none⟩ ⟨[⟨"zzz", "x"⟩]⟩ ⟨[]⟩ (by decide)
    ⟨("x", ["zzz"], []), by decide, "zzz", by decide, by decide⟩

theorem mem_exists_getD (l : List Nat) (c : Nat) (hc : c ∈ l) :
    ∃ j, l.getD j 0 = c := by
  induction l with
  | nil => simp at hc
  | cons a as ih =>
    rcases List.mem_cons.mp hc with hh | hh
    · exact ⟨0, hh.symm⟩
    · obtain ⟨j, hj⟩ := ih hh
      exact ⟨j + 1, by simpa using hj⟩

/-- Every component of a merged hash-map entry is either empty or the
processed label list of some annotation of the corresponding rater. -/
theorem hash_map_entry_shape (r1 r2 : List RaterDataRow) (e : HMEntry)
    (he : e ∈ hash_map r1 r2) :
    (e.2.1 = [] ∨ ∃ a ∈ r1, e.2.1 = _process_labels a.labels)
    ∧ (e.2.2 = [] ∨ ∃ a ∈ r2, e.2.2 = _process_labels a.labels) := by
  have hal : alookup (hash_map r1 r2) e.1 = some e.2 :=
    mem_alookup _ e (hash_map_keys_nodup _ _) he
  rw [alookup_hash_map] at hal
  cases hA : last_labels r1 e.1 with
  | none =>
    cases hB : last_labels r2 e.1 with
    | none => rw [hA, hB] at hal; simp [combine12] at hal
    | some w =>
      rw [hA, hB] at hal
      have hw : ([], w) = e.2 := Option.some.inj hal
      obtain ⟨a, ha, _, hav⟩ := last_labels_mem r2 e.1 w hB
      constructor
      · exact Or.inl (by rw [← hw])
      · exact Or.inr ⟨a, ha, by rw [← hw, ← hav]⟩
  | some v =>
    obtain ⟨a1, ha1, _, hav1⟩ := last_labels_mem r1 e.1 v hA
    cases hB : last_labels r2 e.1 with
    | none =>
      rw [hA, hB] at hal
      have hw : (v, ([] : List String)) = e.2 := Option.some.inj hal
      constructor
      · exact Or.inr ⟨a1, ha1, by rw [← hw, ← hav1]⟩
      · exact Or.inl (by rw [← hw])
    | some w =>
      rw [hA, hB] at hal
      have hw : (v, w) = e.2 := Option.some.inj hal
      obtain ⟨a2, ha2, _, hav2⟩ := last_labels_mem r2 e.1 w hB
      constructor
      · exact Or.inr ⟨a1, ha1, by rw [← hw, ← hav1]⟩
      · exact Or.inr ⟨a2, ha2, by rw [← hw, ← hav2]⟩

/-- C7 amended: each stored count is the number of occurrences of the label
across the two raters' token lists; when every annotation's processed token
list is free of duplicates, every count is at most 2. -/
theorem c7_amended (p : IRRProcessor) (r1 r2 : RaterData) (t : List TableRow)
    (h : _get_agreement_table p r1 r2 = .ok t)
    (hnd : ∀ a ∈ r1.rows ++ r2.rows, (_process_labels a.labels).Nodup) :
    ∀ row ∈ t, ∀ c ∈ row.counts, c ≤ 2 := by
  unfold _get_agreement_table at h
  by_cases hd : p.config.data_column_name ∈ p.available_labels
  · rw [if_pos hd] at h
    simp at h
  · rw [if_neg hd] at h
    intro row hrow c hc
    obtain ⟨e, he, hmk⟩ := build_rows_mem_entry _ _ _ h row hrow
    obtain ⟨hrc, _, _⟩ := mk_row_ok_elim _ _ _ hmk
    obtain ⟨hs1, hs2⟩ := hash_map_entry_shape r1.rows r2.rows e he
    have hnd1 : e.2.1.Nodup := by
      rcases hs1 with hh | ⟨a, ha, hh⟩
      · rw [hh]; exact List.nodup_nil
      · rw [hh]; exact hnd a (List.mem_append_left _ ha)
    have hnd2 : e.2.2.Nodup := by
      rcases hs2 with hh | ⟨a, ha, hh⟩
      · rw [hh]; exact List.nodup_nil
      · rw [hh]; exact hnd a (List.mem_append_right _ ha)
    obtain ⟨j, hj⟩ := mem_exists_getD row.counts c hc
    rw [row_counts_ok_getD _ _ _ _ hrc j, getD_replicate_zero, List.countP_append] at hj
    have hb1 := countP_tok_idx_le_one p.available_labels e.2.1 j hnd1
    have hb2 := countP_tok_idx_le_one p.available_labels e.2.2 j hnd2
    omega

theorem c7_amended_witness :
    (([⟨"x", [2, 1], 2⟩] : List TableRow).all
      (fun row => row.counts.all (fun c => decide (c ≤ 2)))) = true := by
  have h := c7_amended ⟨["a", "b"], defaultConfig, none⟩ ⟨[⟨"a", "x"⟩]⟩ ⟨[⟨"a, b", "x"⟩]⟩
    [⟨"x", [2, 1], 2⟩] (by decide) (by decide)
  rw [List.all_eq_true]
  intro row hrow
  rw [List.all_eq_true]
  intro c hc
  exact decide_eq_true (h row hrow c hc)

/-- C8 amended: a successful `calculate_irr` call leaves the vocabulary and
configuration unchanged but stores the returned coefficient on the processor
object as `krip_alpha` — the object retains the last computed value as
state. -/
theorem c8_amended (p : IRRProcessor) (r1 r2 : RaterData) (a : NpVal) (q : IRRProcessor)
    (h : calculate_irr p r1 r2 = .ok (a, q)) :
    q.available_labels = p.available_labels ∧ q.config = p.config
      ∧ q.krip_alpha = some a := by
  unfold calculate_irr at h
  cases h1 : _get_agreement_table p r1 r2 with
  | error e => rw [h1] at h; simp at h
  | ok t =>
    rw [h1] at h
    dsimp only at h
    cases h2 : alpha_from_table p.available_labels t with
    | error e => rw [h2] at h; simp at h
    | ok v =>
      rw [h2] at h
      dsimp only at h
      have hpair := Except.ok.inj h
      rw [Prod.mk.injEq] at hpair
      rw [← hpair.2, hpair.1]
      exact ⟨rfl, rfl, rfl⟩

theorem c8_amended_witness :
    (⟨["a", "b"], defaultConfig, some (.fin 0)⟩ : IRRProcessor).available_labels
        = (⟨["a", "b"], defaultConfig, none⟩ : IRRProcessor).available_labels
    ∧ (⟨["a", "b"], defaultConfig, some (.fin 0)⟩ : IRRProcessor).config
        = (⟨["a", "b"], defaultConfig, none⟩ : IRRProcessor).config
    ∧ (⟨["a", "b"], defaultConfig, some (.fin 0)⟩ : IRRProcessor).krip_alpha
        = some (.fin 0) :=
  c8_amended ⟨["a", "b"], defaultConfig, none⟩ ⟨[⟨"a", "x"⟩]⟩ ⟨[⟨"b", "x"⟩]⟩ (.fin 0)
    ⟨["a", "b"], defaultConfig, some (.fin 0)⟩ (by
      have ht : _get_agreement_table ⟨["a", "b"], defaultConfig, none⟩
          ⟨[⟨"a", "x"⟩]⟩ ⟨[⟨"b", "x"⟩]⟩ = .ok [⟨"x", [1, 1], 2⟩] := by decide
      have ha : alpha_from_table ["a", "b"] [⟨"x", [1, 1], 2⟩] = .ok (.fin 0) := by
        norm_num [alpha_from_table, r_bar, row_term_sum, p_aik_term, pi_list, col_sum,
          total_num_ratings, np_add, np_sub, np_mul, np_div]
      simp [calculate_irr, ht, ha])

theorem hash_map_self_entries (A : List RaterDataRow) (e : HMEntry)
    (he : e ∈ hash_map A A) :
    ∃ v, e.2 = (v, v) ∧ last_labels A e.1 = some v := by
  have hal : alookup (hash_map A A) e.1 = some e.2 :=
    mem_alookup _ e (hash_map_keys_nodup _ _) he
  rw [alookup_hash_map] at hal
  cases hA : last_labels A e.1 with
  | none => rw [hA] at hal; simp [combine12] at hal
  | some v =>
    rw [hA] at hal
    exact ⟨v, (Option.some.inj hal).symm, rfl⟩

theorem tok_idx_of_mem (vocab : List String) (tok : String) (h : tok ∈ vocab) :
    ∃ i, tok_idx vocab tok = some i ∧ i < vocab.length := by
  induction vocab with
  | nil => simp at h
  | cons v rest ih =>
    unfold tok_idx
    by_cases hv : v = tok
    · exact ⟨0, by rw [if_pos hv], by simp⟩
    · have hmem : tok ∈ rest := by
        rcases List.mem_cons.mp h with hh | hh
        · exact absurd hh.symm hv
        · exact hh
      obtain ⟨i, hi, hlt⟩ := ih hmem
      exact ⟨i + 1, by rw [if_neg hv, hi]; rfl, by simpa using hlt⟩

theorem incr_set (vocab : List String) (counts : List Nat) (tok : String) (i : ℕ)
    (hidx : tok_idx vocab tok = some i) (hlen : counts.length = vocab.length) :
    incr vocab counts tok = .ok (counts.set i (counts.getD i 0 + 1)) := by
  induction vocab generalizing counts i with
  | nil => simp [tok_idx] at hidx
  | cons v vrest ih =>
    cases counts with
    | nil => simp at hlen
    | cons c crest =>
      unfold incr
      unfold tok_idx at hidx
      by_cases hv : v = tok
      · rw [if_pos hv]
        rw [if_pos hv] at hidx
        rw [← Option.some.inj hidx]
        rfl
      · rw [if_neg hv]
        rw [if_neg hv] at hidx
        cases hr : tok_idx vrest tok with
        | none => rw [hr] at hidx; simp at hidx
        | some i2 =>
          rw [hr] at hidx
          simp at hidx
          rw [ih crest i2 hr (by simpa using hlen)]
          rw [← hidx]
          rfl

theorem getD_set_self (l : List Nat) (i : ℕ) (a : Nat) (h : i < l.length) :
    (l.set i a).getD i 0 = a := by
  induction l generalizing i with
  | nil => simp at h
  | cons c crest ih =>
    cases i with
    | zero => rfl
    | succ j => exact ih j (by simpa using h)

theorem row_counts_two_tokens (vocab : List String) (tok : String) (i : ℕ)
    (hidx : tok_idx vocab tok = some i) (hi : i < vocab.length) :
    row_counts vocab (List.replicate vocab.length 0) [tok, tok]
      = .ok ((List.replicate vocab.length 0).set i 2) := by
  have h1 : incr vocab (List.replicate vocab.length 0) tok
      = .ok ((List.replicate vocab.length 0).set i (0 + 1)) := by
    have := incr_set vocab (List.replicate vocab.length 0) tok i hidx (by simp)
    rwa [getD_replicate_zero] at this
  have h2 : incr vocab ((List.replicate vocab.length 0).set i (0 + 1)) tok
      = .ok (((List.replicate vocab.length 0).set i (0 + 1)).set i (1 + 1)) := by
    have := incr_set vocab ((List.replicate vocab.length 0).set i (0 + 1)) tok i hidx
      (by simp)
    rwa [getD_set_self _ _ _ (by simpa using hi)] at this
  unfold row_counts
  rw [h1]
  unfold row_counts
  rw [h2]
  unfold row_counts
  rw [List.set_set]

theorem sum_map_f_set_replicate (f : ℕ → ℚ) (hf0 : f 0 = 0) (n i : ℕ) (hi : i < n)
    (a : ℕ) : (((List.replicate n 0).set i a).map f).sum = f a := by
  induction n generalizing i with
  | zero => simp at hi
  | succ n ih =>
    rw [List.replicate_succ]
    cases i with
    | zero =>
      simp only [List.set_cons_zero, List.map_cons, List.sum_cons, List.map_replicate, hf0]
      simp
    | succ j =>
      simp only [List.set_cons_succ, List.map_cons, List.sum_cons, hf0,
        ih j (by simpa using hi)]
      simp

theorem sum_map_const_of_all (l : List TableRow) (f : TableRow → ℚ) (c : ℚ)
    (h : ∀ x ∈ l, f x = c) : (l.map f).sum = l.length * c := by
  induction l with
  | nil => simp
  | cons x rest ih =>
    rw [List.map_cons, List.sum_cons, h x (List.mem_cons_self x rest),
      ih (fun y hy => h y (List.mem_cons_of_mem x hy))]
    rw [List.length_cons]
    push_cast
    ring

/-- C5 amended: self-agreement yields exactly 1 when every annotation's
processed label list is one single in-vocabulary label (and p_e ≠ 1): using
the same stream for both raters, every row doubles a single label, every
p_aik is 1, p_a = 1, and alpha = (1 - p_e)/(1 - p_e) = 1. -/
theorem c5_amended (p : IRRProcessor) (A : RaterData) (t : List TableRow)
    (hA : 1 ≤ A.rows.length)
    (hsing : ∀ a ∈ A.rows, ∃ l, _process_labels a.labels = [l] ∧ l ∈ p.available_labels)
    (hbuild : _get_agreement_table p A A = .ok t)
    (hpe : spec_p_e p.available_labels t ≠ 1) :
    (calculate_irr p A A).map Prod.fst = .ok (.fin 1) := by
  have hbr : build_rows p.available_labels (hash_map A.rows A.rows) = .ok t := by
    unfold _get_agreement_table at hbuild
    by_cases hd : p.config.data_column_name ∈ p.available_labels
    · rw [if_pos hd] at hbuild
      simp at hbuild
    · rwa [if_neg hd] at hbuild
  have hrow : ∀ r ∈ t, r.num_rater = 2 ∧ r.counts.sum = 2
      ∧ r.counts.length = p.available_labels.length
      ∧ ∃ i, i < p.available_labels.length
          ∧ r.counts = (List.replicate p.available_labels.length 0).set i 2 := by
    intro r hr
    obtain ⟨e, he, hmk⟩ := build_rows_mem_entry _ _ _ hbr r hr
    obtain ⟨v, hv, hlast⟩ := hash_map_self_entries A.rows e he
    obtain ⟨a, ha, _, hav⟩ := last_labels_mem A.rows e.1 v hlast
    obtain ⟨l, hl, hlv⟩ := hsing a ha
    have hvl : v = [l] := by rw [hav, hl]
    obtain ⟨hrc, hdata, hnum⟩ := mk_row_ok_elim _ _ _ hmk
    rw [hv] at hrc hnum
    dsimp only at hrc hnum
    rw [hvl] at hrc hnum
    have happ : ([l] ++ [l] : List String) = [l, l] := rfl
    rw [happ] at hrc
    obtain ⟨i, hidx, hilt⟩ := tok_idx_of_mem p.available_labels l hlv
    have hrc2 := row_counts_two_tokens p.available_labels l i hidx hilt
    have hcounts : r.counts = (List.replicate p.available_labels.length 0).set i 2 :=
      Except.ok.inj (hrc.symm.trans hrc2)
    refine ⟨by simpa using hnum, ?_, ?_, i, hilt, hcounts⟩
    · have := row_counts_ok_sum _ _ _ _ hrc
      simpa using this
    · have := row_counts_ok_length _ _ _ _ hrc
      simpa using this
  have htne : 1 ≤ t.length := by
    cases hAr : A.rows with
    | nil => rw [hAr] at hA; simp at hA
    | cons a0 rest =>
      have hcov : py_strip a0.data ∈ hkeys (hash_map A.rows A.rows) :=
        hash_map_covers _ _ a0
          (by rw [hAr]; exact List.mem_append_left _ (List.mem_cons_self _ _))
      rw [← build_rows_ok_keys _ _ _ hbr] at hcov
      cases t with
      | nil => simp at hcov
      | cons r rs => simp
  have hnq : ((t.length : ℚ)) ≠ 0 := Nat.cast_ne_zero.mpr (by omega)
  have hrbar : spec_r_bar t = 2 := by
    unfold spec_r_bar
    rw [sum_map_const_of_all t _ 2 (fun r hr => by rw [(hrow r hr).1]; norm_num)]
    field_simp
  have halpha := alpha_from_table_eq_spec p.available_labels t htne
    (fun r hr => (hrow r hr).2.2.1)
    (fun r hr => by rw [(hrow r hr).2.1])
    (by rw [hrbar]; norm_num) hpe
  have hprimea : spec_p_primea t = 1 := by
    unfold spec_p_primea
    rw [sum_map_const_of_all t _ 1 ?_]
    · field_simp
    · intro r hr
      obtain ⟨hnum2, hsum2, hlen2, i, hilt, hcounts⟩ := hrow r hr
      unfold spec_row_sum
      have hri : spec_r_i r = 2 := by
        unfold spec_r_i
        rw [hsum2]
        norm_num
      rw [hri, hrbar, hcounts]
      rw [sum_map_f_set_replicate
        (fun c : ℕ => ((c : ℚ) * ((c : ℚ) - 1)) / (2 * (2 - 1))) (by norm_num)
        _ i hilt 2]
      norm_num
  have hpa : spec_p_a t = 1 := by
    unfold spec_p_a
    rw [hprimea]
    ring
  have halpha1 : spec_alpha p.available_labels t = 1 := by
    unfold spec_alpha
    rw [hpa]
    exact div_self (sub_ne_zero.mpr (Ne.symm hpe))
  unfold calculate_irr
  rw [hbuild]
  dsimp only
  rw [halpha]
  dsimp only
  rw [halpha1]
  rfl

theorem c5_amended_witness :
    (calculate_irr ⟨["a", "b"], defaultConfig, none⟩ ⟨[⟨"a", "x"⟩, ⟨"b", "y"⟩]⟩
        ⟨[⟨"a", "x"⟩, ⟨"b", "y"⟩]⟩).map Prod.fst = .ok (.fin 1) := by
  refine c5_amended ⟨["a", "b"], defaultConfig, none⟩ ⟨[⟨"a", "x"⟩, ⟨"b", "y"⟩]⟩
    [⟨"x", [2, 0], 2⟩, ⟨"y", [0, 2], 2⟩] (by decide) ?_ (by decide) ?_
  · intro a ha
    rcases List.mem_cons.mp ha with hh | hh
    · exact ⟨"a", by rw [hh]; decide, by decide⟩
    · rcases List.mem_cons.mp hh with hh2 | hh2
      · exact ⟨"b", by rw [hh2]; decide, by decide⟩
      · simp at hh2
  · norm_num [spec_p_e, spec_PI, col_sum, total_num_ratings, List.range_succ]
